import Mathlib

/-!
Verification development for the `scan` package: a generic scanner engine
(a library extraction of Rob Pike's text/template lexer).

Shallow embedding conventions:
- A Go `string` is a byte sequence, embedded as `List Nat` (each entry < 256
  in practice; the decoder treats any Nat outside byte range as invalid).
- A Go `rune` is embedded as `Int` (Go runes are int32; the scanner also
  returns the untyped constant `EOF = -1` from `Next`).
- Go `Pos` is `int`; in every state reachable through the engine API it is
  nonnegative, so positions are embedded as `Nat` (Nat subtraction only
  differs from int subtraction on the documented contract violation of
  calling `Backup` twice in a row, whose position the design leaves
  undefined).
- The `chan Item` field is embedded as the list of items the driver has
  sent, in send order; a separate rendezvous transition system models the
  unbuffered-channel synchronization itself.
-/

/-! ### The Go standard library pieces the scanner calls
`unicode/utf8.DecodeRuneInString`, `strings.IndexRune`, `strings.Count`
are stdlib functions; they are embedded here following the Go standard
library sources for these functions. -/

/-- utf8.RuneError, the Unicode replacement character U+FFFD. -/
def RuneError : Int := 0xFFFD

/-- Encoded size promised by a leading byte, following utf8.first:
0 encodes the invalid entry xx. -/
def utf8Size (b : Nat) : Nat :=
  if b < 0x80 then 1
  else if b < 0xC2 then 0
  else if b < 0xE0 then 2
  else if b < 0xF0 then 3
  else if b < 0xF5 then 4
  else 0

/-- Accepted range for the second byte, following utf8.acceptRanges. -/
def utf8AcceptLo (b : Nat) : Nat :=
  if b = 0xE0 then 0xA0 else if b = 0xF0 then 0x90 else 0x80

/-- Accepted range for the second byte, following utf8.acceptRanges. -/
def utf8AcceptHi (b : Nat) : Nat :=
  if b = 0xED then 0x9F else if b = 0xF4 then 0x8F else 0xBF

/-- utf8.DecodeRuneInString: first rune of the byte sequence together with
its width in bytes. Returns (RuneError, 0) on empty input, (RuneError, 1)
on an invalid encoding. Go checks the length bound n < sz before the
continuation-byte ranges; here the checks are interleaved with the list
destructuring, which returns the same (RuneError, 1) in every failing case. -/
def decodeRuneInString (s : List Nat) : Int × Nat :=
  match s with
  | [] => (RuneError, 0)
  | s0 :: tail =>
    if s0 < 0x80 then ((s0 : Int), 1)
    else if utf8Size s0 = 0 then (RuneError, 1)
    else
      match tail with
      | [] => (RuneError, 1)
      | s1 :: tail1 =>
        if s1 < utf8AcceptLo s0 ∨ utf8AcceptHi s0 < s1 then (RuneError, 1)
        else if utf8Size s0 = 2 then
          ((((s0 &&& 0x1F) <<< 6) ||| (s1 &&& 0x3F) : Nat), 2)
        else
          match tail1 with
          | [] => (RuneError, 1)
          | s2 :: tail2 =>
            if s2 < 0x80 ∨ 0xBF < s2 then (RuneError, 1)
            else if utf8Size s0 = 3 then
              ((((s0 &&& 0x0F) <<< 12) ||| ((s1 &&& 0x3F) <<< 6) ||| (s2 &&& 0x3F) : Nat), 3)
            else
              match tail2 with
              | [] => (RuneError, 1)
              | s3 :: _ =>
                if s3 < 0x80 ∨ 0xBF < s3 then (RuneError, 1)
                else
                  ((((s0 &&& 0x07) <<< 18) ||| ((s1 &&& 0x3F) <<< 12) |||
                    ((s2 &&& 0x3F) <<< 6) ||| (s3 &&& 0x3F) : Nat), 4)

/-- The decoder consumes at least one byte of a nonempty input. -/
theorem decode_width_pos (s : List Nat) (h : s ≠ []) :
    1 ≤ (decodeRuneInString s).2 := by
  match s with
  | [] => exact absurd rfl h
  | s0 :: tail =>
    unfold decodeRuneInString
    repeat' split
    all_goals simp_all

/-- The decoder never reads past the end of the input. -/
theorem decode_width_le (s : List Nat) :
    (decodeRuneInString s).2 ≤ s.length := by
  match s with
  | [] => simp [decodeRuneInString]
  | s0 :: tail =>
    unfold decodeRuneInString
    repeat' split
    all_goals simp_all [List.length]

/-- utf8.ValidRune. -/
def validRune (r : Int) : Bool :=
  if (0 ≤ r ∧ r < 0xD800) ∨ (0xDFFF < r ∧ r ≤ 0x10FFFF) then true else false

/-- UTF-8 encoding of a valid rune (the conversion string(r) performed by
strings.IndexRune in its default branch; that branch only runs on valid
runes at least 0x80, so the out-of-range replacement path of
utf8.EncodeRune is unreachable from it and is omitted). -/
def encodeRune (r : Int) : List Nat :=
  let v := r.toNat
  if v < 0x80 then [v]
  else if v < 0x800 then
    [0xC0 ||| (v >>> 6), 0x80 ||| (v &&& 0x3F)]
  else if v < 0x10000 then
    [0xE0 ||| (v >>> 12), 0x80 ||| ((v >>> 6) &&& 0x3F), 0x80 ||| (v &&& 0x3F)]
  else
    [0xF0 ||| (v >>> 18), 0x80 ||| ((v >>> 12) &&& 0x3F),
     0x80 ||| ((v >>> 6) &&& 0x3F), 0x80 ||| (v &&& 0x3F)]

/-- strings.IndexByte / bytealg.IndexByteString: byte index of the first
occurrence, or -1. -/
def indexByte (s : List Nat) (b : Nat) : Int :=
  match s with
  | [] => -1
  | c :: rest =>
    if c = b then 0
    else
      let i := indexByte rest b
      if i < 0 then -1 else i + 1

/-- strings.Index for the pattern sub: byte index of the first occurrence of
sub as a contiguous subsequence, or -1 (an empty pattern matches at 0). -/
def stringIndex (s sub : List Nat) : Int :=
  if sub.isPrefixOf s then 0
  else
    match s with
    | [] => -1
    | _ :: rest =>
      let i := stringIndex rest sub
      if i < 0 then -1 else i + 1

/-- Dropping one decoded unit strictly shortens a nonempty input. -/
theorem length_drop_decode_lt (c : Nat) (rest : List Nat) :
    (List.drop (decodeRuneInString (c :: rest)).2 (c :: rest)).length
      < (c :: rest).length := by
  have h1 := decode_width_pos (c :: rest) (List.cons_ne_nil _ _)
  simp only [List.length_drop, List.length_cons]
  omega

/-- The RuneError arm of strings.IndexRune: byte index of the first decoded
rune equal to U+FFFD (which a range loop reports both for an encoded U+FFFD
and for any invalid byte sequence), or -1. -/
def indexRuneError : List Nat → Int
  | [] => -1
  | c :: rest =>
    if (decodeRuneInString (c :: rest)).1 = RuneError then 0
    else
      let w := (decodeRuneInString (c :: rest)).2
      let i := indexRuneError ((c :: rest).drop w)
      if i < 0 then -1 else i + (w : Int)
termination_by s => s.length
decreasing_by
  exact length_drop_decode_lt _ _

/-- strings.IndexRune. -/
def indexRune (s : List Nat) (r : Int) : Int :=
  if 0 ≤ r ∧ r < 0x80 then indexByte s r.toNat
  else if r = RuneError then indexRuneError s
  else if validRune r = false then -1
  else stringIndex s (encodeRune r)

/-! ### The scanner engine (scan.go) -/

/-- Special item type ERROR. -/
def ERROR : Int := -2

/-- Special item type EOF (also the end-of-input sentinel rune). -/
def EOF : Int := -1

/-- Item represents a token or text string returned from the scanner. -/
structure Item where
  typ : Int
  pos : Nat
  val : List Nat
deriving DecidableEq, Repr

/-- Scanner holds the state of the scanner. The Go field items is a
chan Item; here it is the list of items sent so far, in send order (the
rendezvous discipline of the unbuffered channel is modelled separately by
ChanStep below). The Go field state (the pending StateFn) is threaded
explicitly through the driver run instead of being stored, to avoid a
mutual structure/function recursion. -/
structure Scanner where
  name : List Nat
  input : List Nat
  pos : Nat
  start : Nat
  width : Nat
  lastPos : Nat
  items : List Item
  parenDepth : Int
deriving DecidableEq, Repr

/-- The Go slice expression input[a:b]. -/
def substr (l : List Nat) (a b : Nat) : List Nat :=
  (l.drop a).take (b - a)

/-- New creates a new scanner for the input string (the spawned run of the
state machine is modelled by the run function below). -/
def New (name input : List Nat) : Scanner :=
  { name := name, input := input, pos := 0, start := 0, width := 0,
    lastPos := 0, items := [], parenDepth := 0 }

/-- Next returns the next rune in the input. -/
def Scanner.Next (s : Scanner) : Int × Scanner :=
  if s.input.length ≤ s.pos then
    (EOF, { s with width := 0 })
  else
    let d := decodeRuneInString (s.input.drop s.pos)
    (d.1, { s with width := d.2, pos := s.pos + d.2 })

/-- Backup steps back one rune. Can only be called once per call of Next. -/
def Scanner.Backup (s : Scanner) : Scanner :=
  { s with pos := s.pos - s.width }

/-- Peek returns but does not consume the next rune in the input. -/
def Scanner.Peek (s : Scanner) : Int × Scanner :=
  let p := s.Next
  (p.1, p.2.Backup)

/-- Emit passes an item back to the client. -/
def Scanner.Emit (t : Int) (s : Scanner) : Scanner :=
  { s with items := s.items ++ [⟨t, s.start, substr s.input s.start s.pos⟩],
           start := s.pos }

/-- Ignore skips over the pending input before this point. -/
def Scanner.Ignore (s : Scanner) : Scanner :=
  { s with start := s.pos }

/-- Text returns the pending input before this point. -/
def Scanner.Text (s : Scanner) : List Nat :=
  substr s.input s.start s.pos

/-- Accept consumes the next rune if it is from the valid set. -/
def Scanner.Accept (valid : List Nat) (s : Scanner) : Bool × Scanner :=
  if 0 ≤ indexRune valid s.Next.1 then (true, s.Next.2)
  else (false, s.Next.2.Backup)

/-- When the next rune is a member of the valid set, consuming it strictly
shrinks the unread remainder (the sentinel EOF is never a member, see
indexRune_eof). -/
theorem indexRune_eof (valid : List Nat) : indexRune valid EOF = -1 := by
  norm_num [indexRune, EOF, validRune, RuneError]

theorem next_measure_lt (valid : List Nat) (s : Scanner)
    (h : 0 ≤ indexRune valid s.Next.1) :
    s.Next.2.input.length - s.Next.2.pos < s.input.length - s.pos := by
  by_cases hp : s.input.length ≤ s.pos
  · rw [Scanner.Next, if_pos hp] at h
    rw [indexRune_eof] at h
    omega
  · have hlt : s.pos < s.input.length := by omega
    have hne : s.input.drop s.pos ≠ [] := by
      apply List.ne_nil_of_length_pos
      simp only [List.length_drop]
      omega
    have hw := decode_width_pos (s.input.drop s.pos) hne
    rw [Scanner.Next, if_neg hp]
    simp only
    omega

/-- AcceptRun consumes a run of runes from the valid set. -/
def Scanner.AcceptRun (valid : List Nat) (s : Scanner) : Scanner :=
  if h : 0 ≤ indexRune valid s.Next.1 then Scanner.AcceptRun valid s.Next.2
  else s.Next.2.Backup
termination_by s.input.length - s.pos
decreasing_by
  exact next_measure_lt valid s h

/-- LineNumber reports which line we are on, based on the position of the
previous Item returned by NextItem (strings.Count of the newline byte 10 in
input[:lastPos]). -/
def Scanner.LineNumber (s : Scanner) : Nat :=
  1 + (s.input.take s.lastPos).count 10

/-- StateFn represents the state of the scanner as a function that returns
the next state. -/
inductive StateFn where
  | mk : (Scanner → Scanner × Option StateFn) → StateFn

/-- Errorf returns an error item and terminates the scan by passing back a
nil pointer that will be the next state. fmt.Sprintf(format, args...) is
abstracted as the already-formatted message bytes msg. -/
def Scanner.Errorf (msg : List Nat) (s : Scanner) : Scanner × Option StateFn :=
  ({ s with items := s.items ++ [⟨ERROR, s.start, msg⟩] }, none)

/-- NextItem returns the next item from the input (the channel receive is
modelled as taking the oldest sent-but-unreceived item; none models a
receive that blocks because no item has been sent). -/
def Scanner.NextItem (s : Scanner) : Option (Item × Scanner) :=
  match s.items with
  | [] => none
  | item :: rest => some (item, { s with items := rest, lastPos := item.pos })

/-- run runs the state machine for the scanner: starting from state, keep
invoking the current state function until it returns none. The Go loop has
no bound; fuel makes the finite prefixes of that loop explicit, and a run
whose state is none returns immediately at any fuel. -/
def run : Nat → Scanner → Option StateFn → Scanner × Option StateFn
  | _, s, none => (s, none)
  | 0, s, st => (s, st)
  | fuel + 1, s, some (.mk f) => run fuel (f s).1 (f s).2

/-! ### Field characterizations of the cursor operations -/

theorem next_fst (s : Scanner) :
    s.Next.1 = if s.input.length ≤ s.pos then EOF
               else (decodeRuneInString (s.input.drop s.pos)).1 := by
  by_cases hp : s.input.length ≤ s.pos <;> simp [Scanner.Next, hp]

theorem next_pos (s : Scanner) :
    s.Next.2.pos = if s.input.length ≤ s.pos then s.pos
                   else s.pos + (decodeRuneInString (s.input.drop s.pos)).2 := by
  by_cases hp : s.input.length ≤ s.pos <;> simp [Scanner.Next, hp]

theorem next_width (s : Scanner) :
    s.Next.2.width = if s.input.length ≤ s.pos then 0
                     else (decodeRuneInString (s.input.drop s.pos)).2 := by
  by_cases hp : s.input.length ≤ s.pos <;> simp [Scanner.Next, hp]

theorem next_input (s : Scanner) : s.Next.2.input = s.input := by
  rw [Scanner.Next]; split <;> rfl

theorem next_start (s : Scanner) : s.Next.2.start = s.start := by
  rw [Scanner.Next]; split <;> rfl

theorem next_items (s : Scanner) : s.Next.2.items = s.items := by
  rw [Scanner.Next]; split <;> rfl

theorem next_lastPos (s : Scanner) : s.Next.2.lastPos = s.lastPos := by
  rw [Scanner.Next]; split <;> rfl

theorem next_pos_ge (s : Scanner) : s.pos ≤ s.Next.2.pos := by
  rw [next_pos]; split <;> omega

theorem backup_input (s : Scanner) : s.Backup.input = s.input := rfl
theorem backup_start (s : Scanner) : s.Backup.start = s.start := rfl
theorem backup_width (s : Scanner) : s.Backup.width = s.width := rfl
theorem backup_items (s : Scanner) : s.Backup.items = s.items := rfl
theorem backup_lastPos (s : Scanner) : s.Backup.lastPos = s.lastPos := rfl
theorem backup_pos (s : Scanner) : s.Backup.pos = s.pos - s.width := rfl

/-- After a Next, a single Backup restores the position Next started from. -/
theorem next_backup_pos (s : Scanner) : s.Next.2.Backup.pos = s.pos := by
  by_cases hp : s.input.length ≤ s.pos <;>
    simp [Scanner.Next, Scanner.Backup, hp]

theorem peek_fst (s : Scanner) : s.Peek.1 = s.Next.1 := rfl
theorem peek_snd (s : Scanner) : s.Peek.2 = s.Next.2.Backup := rfl

theorem peek_pos (s : Scanner) : s.Peek.2.pos = s.pos := by
  rw [peek_snd, next_backup_pos]

theorem peek_input (s : Scanner) : s.Peek.2.input = s.input := by
  rw [peek_snd, backup_input, next_input]

theorem peek_start (s : Scanner) : s.Peek.2.start = s.start := by
  rw [peek_snd, backup_start, next_start]

theorem peek_items (s : Scanner) : s.Peek.2.items = s.items := by
  rw [peek_snd, backup_items, next_items]

theorem peek_lastPos (s : Scanner) : s.Peek.2.lastPos = s.lastPos := by
  rw [peek_snd, backup_lastPos, next_lastPos]

theorem peek_width (s : Scanner) :
    s.Peek.2.width = if s.input.length ≤ s.pos then 0
                     else (decodeRuneInString (s.input.drop s.pos)).2 := by
  rw [peek_snd, backup_width, next_width]

theorem accept_input (valid : List Nat) (s : Scanner) :
    (s.Accept valid).2.input = s.input := by
  rw [Scanner.Accept]; split <;> simp [backup_input, next_input]

theorem accept_start (valid : List Nat) (s : Scanner) :
    (s.Accept valid).2.start = s.start := by
  rw [Scanner.Accept]; split <;> simp [backup_start, next_start]

theorem accept_items (valid : List Nat) (s : Scanner) :
    (s.Accept valid).2.items = s.items := by
  rw [Scanner.Accept]; split <;> simp [backup_items, next_items]

theorem accept_lastPos (valid : List Nat) (s : Scanner) :
    (s.Accept valid).2.lastPos = s.lastPos := by
  rw [Scanner.Accept]; split <;> simp [backup_lastPos, next_lastPos]

theorem accept_pos_ge (valid : List Nat) (s : Scanner) :
    s.pos ≤ (s.Accept valid).2.pos := by
  rw [Scanner.Accept]; split
  · exact next_pos_ge s
  · simp [next_backup_pos]

theorem emit_start (t : Int) (s : Scanner) : (s.Emit t).start = s.pos := rfl
theorem emit_pos (t : Int) (s : Scanner) : (s.Emit t).pos = s.pos := rfl
theorem emit_input (t : Int) (s : Scanner) : (s.Emit t).input = s.input := rfl
theorem emit_width (t : Int) (s : Scanner) : (s.Emit t).width = s.width := rfl
theorem emit_lastPos (t : Int) (s : Scanner) : (s.Emit t).lastPos = s.lastPos := rfl
theorem emit_items (t : Int) (s : Scanner) :
    (s.Emit t).items = s.items ++ [⟨t, s.start, substr s.input s.start s.pos⟩] := rfl

theorem ignore_start (s : Scanner) : s.Ignore.start = s.pos := rfl
theorem ignore_pos (s : Scanner) : s.Ignore.pos = s.pos := rfl
theorem ignore_input (s : Scanner) : s.Ignore.input = s.input := rfl
theorem ignore_items (s : Scanner) : s.Ignore.items = s.items := rfl
theorem ignore_lastPos (s : Scanner) : s.Ignore.lastPos = s.lastPos := rfl

theorem errorf_fst_pos (msg : List Nat) (s : Scanner) :
    (s.Errorf msg).1.pos = s.pos := rfl
theorem errorf_fst_start (msg : List Nat) (s : Scanner) :
    (s.Errorf msg).1.start = s.start := rfl
theorem errorf_fst_width (msg : List Nat) (s : Scanner) :
    (s.Errorf msg).1.width = s.width := rfl
theorem errorf_fst_input (msg : List Nat) (s : Scanner) :
    (s.Errorf msg).1.input = s.input := rfl
theorem errorf_fst_lastPos (msg : List Nat) (s : Scanner) :
    (s.Errorf msg).1.lastPos = s.lastPos := rfl

/-- Unfolding equation for AcceptRun. -/
theorem acceptRun_eq (valid : List Nat) (s : Scanner) :
    Scanner.AcceptRun valid s =
      if 0 ≤ indexRune valid s.Next.1 then Scanner.AcceptRun valid s.Next.2
      else s.Next.2.Backup := by
  rw [Scanner.AcceptRun]
  by_cases h : 0 ≤ indexRune valid s.Next.1 <;> simp [h]

/-- AcceptRun only moves the position forward and touches no other field. -/
theorem acceptRun_frame (valid : List Nat) (s : Scanner) :
    (Scanner.AcceptRun valid s).input = s.input ∧
    (Scanner.AcceptRun valid s).start = s.start ∧
    (Scanner.AcceptRun valid s).items = s.items ∧
    (Scanner.AcceptRun valid s).lastPos = s.lastPos ∧
    s.pos ≤ (Scanner.AcceptRun valid s).pos := by
  induction s using Scanner.AcceptRun.induct with
  | valid => exact valid
  | case1 s h ih =>
    rw [acceptRun_eq, if_pos h]
    refine ⟨?_, ?_, ?_, ?_, ?_⟩
    · rw [ih.1, next_input]
    · rw [ih.2.1, next_start]
    · rw [ih.2.2.1, next_items]
    · rw [ih.2.2.2.1, next_lastPos]
    · exact le_trans (next_pos_ge s) ih.2.2.2.2
  | case2 s h =>
    rw [acceptRun_eq, if_neg h]
    exact ⟨by rw [backup_input, next_input], by rw [backup_start, next_start],
           by rw [backup_items, next_items], by rw [backup_lastPos, next_lastPos],
           by rw [next_backup_pos]⟩

/-! ### C1: Next -/

/-- C1: for every input string and position, if the position is at or past
the end of the input, Next returns the EOF sentinel, sets the consumed
width to zero and leaves the position unchanged; otherwise it returns the
next decoded unit and moves the position forward by exactly that unit's
encoded byte width, without reading past the end of the buffer and without
splitting a multi-byte unit (it always advances by the full decoded
width, which is at least one byte). -/
theorem Next_advances_by_unit_width (s : Scanner) :
    (s.input.length ≤ s.pos →
      s.Next.1 = EOF ∧ s.Next.2.width = 0 ∧ s.Next.2.pos = s.pos) ∧
    (s.pos < s.input.length →
      s.Next.1 = (decodeRuneInString (s.input.drop s.pos)).1 ∧
      s.Next.2.width = (decodeRuneInString (s.input.drop s.pos)).2 ∧
      s.Next.2.pos = s.pos + s.Next.2.width ∧
      1 ≤ s.Next.2.width ∧
      s.Next.2.pos ≤ s.input.length) := by
  constructor
  · intro hp
    refine ⟨?_, ?_, ?_⟩ <;> simp [next_fst, next_width, next_pos, hp]
  · intro hp
    have hp' : ¬ s.input.length ≤ s.pos := by omega
    have hne : s.input.drop s.pos ≠ [] := by
      apply List.ne_nil_of_length_pos
      simp only [List.length_drop]
      omega
    have hw := decode_width_pos (s.input.drop s.pos) hne
    have hle := decode_width_le (s.input.drop s.pos)
    rw [List.length_drop] at hle
    refine ⟨by simp [next_fst, hp'], by simp [next_width, hp'],
            by simp [next_pos, next_width, hp'], ?_, ?_⟩
    · rw [next_width, if_neg hp']
      exact hw
    · rw [next_pos, if_neg hp']
      omega

theorem Next_advances_by_unit_width_witness :
    ((New [] []).Next.1 = EOF ∧ (New [] []).Next.2.width = 0 ∧
      (New [] []).Next.2.pos = (New [] []).pos) ∧
    (New [] [97]).Next.2.pos ≤ (New [] [97]).input.length :=
  ⟨(Next_advances_by_unit_width (New [] [])).1 (by decide),
   (((Next_advances_by_unit_width (New [] [97])).2 (by decide)).2.2.2.2)⟩

/-! ### C6 and C7: Peek -/

/-- A scanner that has just consumed the single byte of its input; its
last-consumed width is 1. -/
def c6s : Scanner := (New [] [97]).Next.2

/-- C6 counterexample: after Peek at end of input the consumed-width field
is 0, not its prior value 1; Peek does not restore consumed-width. -/
theorem Peek_width_claim_cex : ¬ (c6s.Peek.2.width = c6s.width) := by decide

/-- C6 amended: Peek leaves the position (and the emission boundary, the
item list and the hand-off position) unchanged, but it overwrites the
last-consumed-width field with the width of the peeked unit (zero at end
of input) instead of restoring its prior value. -/
theorem Peek_frame_amended (s : Scanner) :
    s.Peek.2.pos = s.pos ∧
    s.Peek.2.width = (if s.input.length ≤ s.pos then 0
                      else (decodeRuneInString (s.input.drop s.pos)).2) ∧
    s.Peek.2.start = s.start ∧
    s.Peek.2.input = s.input ∧
    s.Peek.2.items = s.items ∧
    s.Peek.2.lastPos = s.lastPos :=
  ⟨peek_pos s, peek_width s, peek_start s, peek_input s, peek_items s,
   peek_lastPos s⟩

/-- The rune Next (and hence Peek) returns is determined by the input and
the position alone. -/
theorem next_fst_congr (s t : Scanner) (hi : t.input = s.input)
    (hp : t.pos = s.pos) : t.Next.1 = s.Next.1 := by
  rw [next_fst, next_fst, hi, hp]

/-- Iterated Peek (n consecutive calls, threading the state). -/
def peekIter : Nat → Scanner → Scanner
  | 0, s => s
  | n + 1, s => peekIter n s.Peek.2

/-- C7: Peek is idempotent: after any number of consecutive Peek calls the
position (and input) is unchanged and one more Peek still returns the same
unit and still leaves the position unchanged. -/
theorem Peek_idempotent (n : Nat) (s : Scanner) :
    (peekIter n s).pos = s.pos ∧
    (peekIter n s).input = s.input ∧
    (peekIter n s).Peek.1 = s.Peek.1 ∧
    (peekIter n s).Peek.2.pos = s.pos := by
  induction n generalizing s with
  | zero =>
    exact ⟨rfl, rfl, rfl, peek_pos s⟩
  | succ n ih =>
    have h := ih s.Peek.2
    have hstep : peekIter (n + 1) s = peekIter n s.Peek.2 := rfl
    rw [hstep]
    refine ⟨h.1.trans (peek_pos s), h.2.1.trans (peek_input s), ?_, ?_⟩
    · rw [h.2.2.1, peek_fst, peek_fst]
      exact next_fst_congr s s.Peek.2 (peek_input s) (peek_pos s)
    · rw [h.2.2.2, peek_pos]

/-! ### C8 and C10: Errorf and the driver -/

/-- C8: Errorf sends exactly one ERROR-kind item carrying the formatted
message, positioned at the start of the pending text, and returns none as
the next state; the driver run halts as soon as the state is none, so a
state function that returns the result of Errorf terminates the state
machine with no further transitions. -/
theorem Errorf_emits_error_and_halts :
    (∀ (s : Scanner) (msg : List Nat),
      (s.Errorf msg).2 = none ∧
      (s.Errorf msg).1.items = s.items ++ [⟨ERROR, s.start, msg⟩]) ∧
    (∀ (fuel : Nat) (s : Scanner), run fuel s none = (s, none)) ∧
    (∀ (fuel : Nat) (s : Scanner) (f : Scanner → Scanner × Option StateFn),
      (f s).2 = none →
      run (fuel + 1) s (some (StateFn.mk f)) = ((f s).1, none)) := by
  refine ⟨fun s msg => ⟨rfl, rfl⟩, fun fuel s => ?_, fun fuel s f h => ?_⟩
  · cases fuel <;> rfl
  · show run fuel (f s).1 (f s).2 = ((f s).1, none)
    rw [h]
    cases fuel <;> rfl

theorem Errorf_emits_error_and_halts_witness :
    run 1 (New [] []) (some (StateFn.mk (fun s => s.Errorf []))) =
      (((New [] []).Errorf []).1, none) :=
  Errorf_emits_error_and_halts.2.2 0 (New [] []) (fun s => s.Errorf []) rfl

/-- C10: Errorf leaves the cursor state unchanged: position, emission
boundary and last-consumed width are the same after the call, and unlike
Emit (whose boundary moves to the current position) it does not advance
the emission boundary. -/
theorem Errorf_preserves_cursor (s : Scanner) (msg : List Nat) (t : Int) :
    (s.Errorf msg).1.pos = s.pos ∧
    (s.Errorf msg).1.start = s.start ∧
    (s.Errorf msg).1.width = s.width ∧
    (s.Errorf msg).1.lastPos = s.lastPos ∧
    (s.Errorf msg).1.input = s.input ∧
    (s.Emit t).start = s.pos :=
  ⟨rfl, rfl, rfl, rfl, rfl, rfl⟩

/-! ### C9: AcceptRun -/

/-- At end of input the loop body of AcceptRun exits at once: Next yields
EOF, which is never a member of a valid set, and the closing Backup
subtracts the zero width EOF set, leaving the position unchanged. -/
theorem acceptRun_at_end (valid : List Nat) (s : Scanner)
    (hp : s.input.length ≤ s.pos) :
    Scanner.AcceptRun valid s = s.Next.2.Backup := by
  rw [acceptRun_eq]
  have he : s.Next.1 = EOF := by rw [next_fst, if_pos hp]
  rw [he, indexRune_eof]
  norm_num

/-- The first unit at the final position of AcceptRun is a non-member. -/
theorem acceptRun_next_nonmember (valid : List Nat) (s : Scanner) :
    indexRune valid (Scanner.AcceptRun valid s).Next.1 < 0 := by
  induction s using Scanner.AcceptRun.induct with
  | valid => exact valid
  | case1 s h ih =>
    rw [acceptRun_eq, if_pos h]
    exact ih
  | case2 s h =>
    rw [acceptRun_eq, if_neg h]
    have he : s.Next.2.Backup.Next.1 = s.Next.1 :=
      next_fst_congr s s.Next.2.Backup
        (by rw [backup_input, next_input]) (next_backup_pos s)
    rw [he]
    exact not_le.mp h

/-- C9: AcceptRun terminates on every input (its recursion strictly
decreases the unread remainder, since the EOF sentinel is never a member
of a valid set), and on exit the position rests just before the first
non-member unit: the position never decreases, the unit Next would decode
at the final position is a non-member (so the rejecting unit is not
consumed), and when the scan already starts at or past the end of input
the position is unchanged. -/
theorem AcceptRun_stops_before_nonmember :
    (∀ valid : List Nat, indexRune valid EOF = -1) ∧
    (∀ (valid : List Nat) (s : Scanner),
      (Scanner.AcceptRun valid s).input = s.input ∧
      s.pos ≤ (Scanner.AcceptRun valid s).pos ∧
      indexRune valid (Scanner.AcceptRun valid s).Next.1 < 0 ∧
      (s.input.length ≤ s.pos → (Scanner.AcceptRun valid s).pos = s.pos)) := by
  refine ⟨indexRune_eof, fun valid s => ⟨(acceptRun_frame valid s).1,
    (acceptRun_frame valid s).2.2.2.2, acceptRun_next_nonmember valid s, ?_⟩⟩
  intro hp
  rw [acceptRun_at_end valid s hp, next_backup_pos]

theorem AcceptRun_stops_before_nonmember_witness :
    (Scanner.AcceptRun [48] (New [] [])).pos = (New [] []).pos :=
  (AcceptRun_stops_before_nonmember.2 [48] (New [] [])).2.2.2 (by decide)

/-! ### C3: positions stay on unit boundaries -/

/-- The positions of input that lie on boundaries between encoded units:
exactly those reachable from 0 by repeatedly stepping over one decoded
unit. -/
inductive IsBoundary (input : List Nat) : Nat → Prop where
  | zero : IsBoundary input 0
  | step (p : Nat) (hp : IsBoundary input p) (hlt : p < input.length) :
      IsBoundary input (p + (decodeRuneInString (input.drop p)).2)

/-- The boundary invariant of a scanner: both the current position and the
emission boundary lie on unit boundaries of the input. -/
def BInv (s : Scanner) : Prop :=
  IsBoundary s.input s.start ∧ IsBoundary s.input s.pos

theorem binv_of_fields {s t : Scanner} (hi : t.input = s.input)
    (hst : t.start = s.start) (hpos : IsBoundary s.input t.pos)
    (h : BInv s) : BInv t := by
  constructor
  · rw [hi, hst]
    exact h.1
  · rw [hi]
    exact hpos

theorem next_pos_boundary (s : Scanner) (h : IsBoundary s.input s.pos) :
    IsBoundary s.input s.Next.2.pos := by
  rw [next_pos]
  split
  · exact h
  · next hp => exact IsBoundary.step s.pos h (by omega)

theorem next_binv (s : Scanner) (h : BInv s) : BInv s.Next.2 :=
  binv_of_fields (next_input s) (next_start s) (next_pos_boundary s h.2) h

theorem accept_binv (valid : List Nat) (s : Scanner) (h : BInv s) :
    BInv (s.Accept valid).2 := by
  rw [Scanner.Accept]
  split
  · exact next_binv s h
  · exact binv_of_fields (by rw [backup_input, next_input])
      (by rw [backup_start, next_start])
      (by rw [next_backup_pos]; exact h.2) h

theorem acceptRun_binv (valid : List Nat) :
    ∀ s : Scanner, BInv s → BInv (Scanner.AcceptRun valid s) := by
  intro s
  induction s using Scanner.AcceptRun.induct with
  | valid => exact valid
  | case1 s hg ih =>
    intro h
    rw [acceptRun_eq, if_pos hg]
    exact ih (next_binv s h)
  | case2 s hg =>
    intro h
    rw [acceptRun_eq, if_neg hg]
    exact binv_of_fields (by rw [backup_input, next_input])
      (by rw [backup_start, next_start])
      (by rw [next_backup_pos]; exact h.2) h

/-- C3: every cursor operation preserves the invariant that the current
position and the emission boundary lie on unit boundaries of the input.
The documented precondition on Backup (never called twice without an
intervening Next) is rendered as the hypothesis that one step back from
the current position is itself a boundary; the fourth conjunct shows this
hypothesis holds in exactly the sanctioned situation, a state just
produced by Next. -/
theorem Cursor_ops_preserve_boundaries :
    (∀ s : Scanner, BInv s → BInv s.Next.2) ∧
    (∀ s : Scanner, BInv s → BInv s.Peek.2) ∧
    (∀ s : Scanner,
      BInv s → IsBoundary s.input (s.pos - s.width) → BInv s.Backup) ∧
    (∀ s : Scanner, BInv s →
      IsBoundary s.Next.2.input (s.Next.2.pos - s.Next.2.width)) ∧
    (∀ (valid : List Nat) (s : Scanner), BInv s → BInv (s.Accept valid).2) ∧
    (∀ (valid : List Nat) (s : Scanner), BInv s →
      BInv (Scanner.AcceptRun valid s)) ∧
    (∀ (t : Int) (s : Scanner), BInv s → BInv (s.Emit t)) ∧
    (∀ s : Scanner, BInv s → BInv s.Ignore) := by
  refine ⟨next_binv, ?_, ?_, ?_, accept_binv, acceptRun_binv, ?_, ?_⟩
  · intro s h
    exact binv_of_fields (peek_input s) (peek_start s)
      (by rw [peek_pos]; exact h.2) h
  · intro s h hb
    exact @binv_of_fields s s.Backup rfl rfl (by rw [backup_pos]; exact hb) h
  · intro s h
    by_cases hp : s.input.length ≤ s.pos
    · simpa [next_input, next_pos, next_width, hp] using h.2
    · simpa [next_input, next_pos, next_width, hp] using h.2
  · intro t s h
    exact ⟨h.2, h.2⟩
  · intro s h
    exact ⟨h.2, h.2⟩

theorem Cursor_ops_preserve_boundaries_witness :
    BInv (Scanner.Backup (New [] [97])) ∧ BInv ((New [] [97]).Next.2) :=
  ⟨Cursor_ops_preserve_boundaries.2.2.1 (New [] [97])
      ⟨IsBoundary.zero, IsBoundary.zero⟩ IsBoundary.zero,
   Cursor_ops_preserve_boundaries.1 (New [] [97])
      ⟨IsBoundary.zero, IsBoundary.zero⟩⟩

/-! ### C2: emitted and ignored spans reconstruct the input -/

theorem nextItem_some (s : Scanner) (pr : Item × Scanner)
    (h : s.NextItem = some pr) :
    pr.2.input = s.input ∧ pr.2.start = s.start ∧ pr.2.pos = s.pos ∧
    pr.2.width = s.width ∧ pr.2.lastPos = pr.1.pos ∧
    s.items = pr.1 :: pr.2.items := by
  cases hi : s.items with
  | nil =>
    rw [Scanner.NextItem, hi] at h
    exact absurd h (by simp)
  | cons i rest =>
    rw [Scanner.NextItem, hi] at h
    obtain rfl : pr = (i, { s with items := rest, lastPos := i.pos }) :=
      (Option.some_inj.mp h).symm
    exact ⟨rfl, rfl, rfl, rfl, rfl, rfl⟩

theorem take_substr (l : List Nat) (a b : Nat) (h : a ≤ b) :
    l.take a ++ substr l a b = l.take b := by
  rw [substr, ← List.take_add, Nat.add_sub_cancel' h]

/-- A scanner together with the trace of the spans it has handed out via
Emit or discarded via Ignore, in order. -/
structure TracedScanner where
  sc : Scanner
  chunks : List (List Nat)

/-- One engine-API step of a scan, instrumented with the span trace. The
backup step carries the usage precondition that the step undone is the
one Next just made past the emission boundary (Backup is never used twice
in a row); an emit or ignore step records the pending span, which for emit
is exactly the Val of the Item that Emit appends. -/
inductive TracedStep : TracedScanner → TracedScanner → Prop where
  | next (ts : TracedScanner) : TracedStep ts ⟨ts.sc.Next.2, ts.chunks⟩
  | peek (ts : TracedScanner) : TracedStep ts ⟨ts.sc.Peek.2, ts.chunks⟩
  | backup (ts : TracedScanner) (h : ts.sc.start + ts.sc.width ≤ ts.sc.pos) :
      TracedStep ts ⟨ts.sc.Backup, ts.chunks⟩
  | accept (ts : TracedScanner) (valid : List Nat) :
      TracedStep ts ⟨(ts.sc.Accept valid).2, ts.chunks⟩
  | acceptRun (ts : TracedScanner) (valid : List Nat) :
      TracedStep ts ⟨Scanner.AcceptRun valid ts.sc, ts.chunks⟩
  | emit (ts : TracedScanner) (t : Int) :
      TracedStep ts
        ⟨ts.sc.Emit t, ts.chunks ++ [substr ts.sc.input ts.sc.start ts.sc.pos]⟩
  | ignore (ts : TracedScanner) :
      TracedStep ts
        ⟨ts.sc.Ignore, ts.chunks ++ [substr ts.sc.input ts.sc.start ts.sc.pos]⟩
  | errorf (ts : TracedScanner) (msg : List Nat) :
      TracedStep ts ⟨(ts.sc.Errorf msg).1, ts.chunks⟩
  | nextItem (ts : TracedScanner) (pr : Item × Scanner)
      (h : ts.sc.NextItem = some pr) : TracedStep ts ⟨pr.2, ts.chunks⟩

/-- The traced states reachable in a scan of the given input. -/
inductive TracedReach (input : List Nat) : TracedScanner → Prop where
  | init (name : List Nat) : TracedReach input ⟨New name input, []⟩
  | step {a b : TracedScanner} (ha : TracedReach input a)
      (hs : TracedStep a b) : TracedReach input b

theorem tracedStep_preserves (input : List Nat) {a b : TracedScanner}
    (hs : TracedStep a b) (ih1 : a.sc.input = input)
    (ih2 : a.chunks.flatten = input.take a.sc.start)
    (ih3 : a.sc.start ≤ a.sc.pos) :
    b.sc.input = input ∧ b.chunks.flatten = input.take b.sc.start ∧
    b.sc.start ≤ b.sc.pos := by
  cases hs with
  | next =>
    dsimp only
    refine ⟨(next_input a.sc).trans ih1, ?_, ?_⟩
    · rw [next_start]
      exact ih2
    · rw [next_start]
      exact le_trans ih3 (next_pos_ge a.sc)
  | peek =>
    dsimp only
    refine ⟨(peek_input a.sc).trans ih1, ?_, ?_⟩
    · rw [peek_start]
      exact ih2
    · rw [peek_start, peek_pos]
      exact ih3
  | backup h =>
    dsimp only
    refine ⟨ih1, ih2, ?_⟩
    rw [backup_start, backup_pos]
    omega
  | accept valid =>
    dsimp only
    refine ⟨(accept_input valid a.sc).trans ih1, ?_, ?_⟩
    · rw [accept_start]
      exact ih2
    · rw [accept_start]
      exact le_trans ih3 (accept_pos_ge valid a.sc)
  | acceptRun valid =>
    obtain ⟨hf1, hf2, hf3, hf4, hf5⟩ := acceptRun_frame valid a.sc
    dsimp only
    refine ⟨hf1.trans ih1, ?_, ?_⟩
    · rw [hf2]
      exact ih2
    · rw [hf2]
      exact le_trans ih3 hf5
  | emit t =>
    dsimp only
    refine ⟨ih1, ?_, Nat.le_refl _⟩
    rw [List.flatten_append, ih2, emit_start, ih1]
    simpa using take_substr input a.sc.start a.sc.pos ih3
  | ignore =>
    dsimp only
    refine ⟨ih1, ?_, Nat.le_refl _⟩
    rw [List.flatten_append, ih2, ignore_start, ih1]
    simpa using take_substr input a.sc.start a.sc.pos ih3
  | errorf msg =>
    exact ⟨ih1, ih2, ih3⟩
  | nextItem pr h =>
    obtain ⟨hn1, hn2, hn3, hn4, hn5, hn6⟩ := nextItem_some a.sc pr h
    dsimp only
    refine ⟨hn1.trans ih1, ?_, ?_⟩
    · rw [hn2]
      exact ih2
    · rw [hn2, hn3]
      exact ih3

/-- C2: in any run of the scan, the spans handed out by Emit and the spans
discarded by Ignore, concatenated in order, are exactly the consumed
prefix of the input up to the emission boundary: contiguous,
non-overlapping, in input order, with no bytes gained or lost; and the
span an emit step records is exactly the Val field of the Item that Emit
appends to the item channel. -/
theorem Emitted_and_ignored_reconstruct_input :
    (∀ (input : List Nat) (ts : TracedScanner), TracedReach input ts →
      ts.sc.input = input ∧
      ts.chunks.flatten = input.take ts.sc.start ∧
      ts.sc.start ≤ ts.sc.pos) ∧
    (∀ (t : Int) (sc : Scanner),
      (sc.Emit t).items =
        sc.items ++ [⟨t, sc.start, substr sc.input sc.start sc.pos⟩]) := by
  refine ⟨fun input ts h => ?_, fun t sc => rfl⟩
  induction h with
  | init name => exact ⟨rfl, rfl, Nat.le_refl 0⟩
  | step ha hs ih => exact tracedStep_preserves input hs ih.1 ih.2.1 ih.2.2

def c2a : TracedScanner := ⟨New [] [97, 98], []⟩
def c2b : TracedScanner := ⟨c2a.sc.Next.2, c2a.chunks⟩
def c2c : TracedScanner :=
  ⟨c2b.sc.Emit 5, c2b.chunks ++ [substr c2b.sc.input c2b.sc.start c2b.sc.pos]⟩

theorem Emitted_and_ignored_reconstruct_input_witness :
    c2c.sc.input = [97, 98] ∧
    c2c.chunks.flatten = [97, 98].take c2c.sc.start ∧
    c2c.sc.start ≤ c2c.sc.pos :=
  Emitted_and_ignored_reconstruct_input.1 [97, 98] c2c
    (TracedReach.step
      (TracedReach.step (TracedReach.init []) (TracedStep.next c2a))
      (TracedStep.emit c2b 5))

/-! ### C4: the unbuffered item channel -/

/-- The state of the items channel together with the histories of the two
endpoints: the list of items the driver has passed to the channel send in
Emit and Errorf, and the list of items NextItem receives have returned,
plus the at-most-one item currently in flight. -/
structure ChanState where
  sent : List Item
  received : List Item
  slot : Option Item
deriving DecidableEq

/-- The rendezvous discipline of the unbuffered chan Item: a send (the
channel operation inside Emit or Errorf) can only complete into an empty
slot — a driver whose previous item has not been taken stays blocked, so
no second send step is enabled — and a receive (the channel operation
inside NextItem) takes the single in-flight item. -/
inductive ChanStep : ChanState → ChanState → Prop where
  | send (c : ChanState) (i : Item) (h : c.slot = none) :
      ChanStep c ⟨c.sent ++ [i], c.received, some i⟩
  | recv (c : ChanState) (i : Item) (h : c.slot = some i) :
      ChanStep c ⟨c.sent, c.received ++ [i], none⟩

/-- Channel states reachable from the fresh channel made by New. -/
inductive ChanReach : ChanState → Prop where
  | init : ChanReach ⟨[], [], none⟩
  | step {a b : ChanState} (ha : ChanReach a) (hs : ChanStep a b) : ChanReach b

/-- C4: in every reachable channel state the items received are exactly a
prefix of the items sent, in the same order (no reordering, no batching),
and the driver is never more than one item ahead of the consumer. -/
theorem Channel_ordered_single_slot (c : ChanState) (h : ChanReach c) :
    c.sent = c.received ++ c.slot.toList ∧
    List.IsPrefix c.received c.sent ∧
    c.sent.length ≤ c.received.length + 1 := by
  induction h with
  | init => exact ⟨rfl, List.nil_prefix, by simp⟩
  | step ha hs ih =>
    obtain ⟨ih1, ih2, ih3⟩ := ih
    cases hs with
    | send i h =>
      dsimp only
      rw [h] at ih1
      simp only [Option.toList_none, List.append_nil] at ih1
      refine ⟨?_, ⟨[i], by rw [ih1]⟩, ?_⟩
      · rw [ih1]
        simp
      · rw [ih1]
        simp
    | recv i h =>
      dsimp only
      rw [h] at ih1
      simp only [Option.toList_some] at ih1
      refine ⟨by rw [ih1]; simp, ⟨[], by rw [ih1]; simp⟩, ?_⟩
      rw [ih1]
      simp

def c4item : Item := ⟨0, 0, []⟩
def c4state : ChanState := ⟨[c4item], [], some c4item⟩

theorem Channel_ordered_single_slot_witness :
    c4state.sent = c4state.received ++ c4state.slot.toList ∧
    List.IsPrefix c4state.received c4state.sent ∧
    c4state.sent.length ≤ c4state.received.length + 1 :=
  Channel_ordered_single_slot c4state
    (ChanReach.step ChanReach.init (ChanStep.send ⟨[], [], none⟩ c4item rfl))

/-! ### C5: LineNumber -/

theorem lineNumber_congr {s t : Scanner} (hi : t.input = s.input)
    (hl : t.lastPos = s.lastPos) : t.LineNumber = s.LineNumber := by
  rw [Scanner.LineNumber, Scanner.LineNumber, hi, hl]

/-- A scan of the two-byte input newline-then-a that consumed the newline,
emitted it as a token, and handed that token off through NextItem. -/
def c5sc : Scanner := Scanner.Emit 7 ((New [] [10, 97]).Next.2)

def c5take : Item × Scanner := c5sc.NextItem.get (by decide)

/-- C5 counterexample: after the hand-off, LineNumber returns 1, not the
count 0 of newline bytes strictly before the handed-off token's position;
LineNumber is one-based, one plus that count. -/
theorem LineNumber_claim_cex :
    ¬ (c5take.2.LineNumber =
        (c5take.2.input.take c5take.2.lastPos).count 10) := by decide

/-- C5 amended: LineNumber returns one plus the count of newline bytes
strictly before the position of the most recently handed-off token (the
Pos of the last Item NextItem returned, which NextItem stores as lastPos),
and it is unaffected by any cursor operation — so it tracks the hand-off
position, not the live cursor. -/
theorem LineNumber_counts_before_handoff :
    (∀ (s : Scanner) (pr : Item × Scanner), s.NextItem = some pr →
      pr.2.lastPos = pr.1.pos ∧
      pr.2.LineNumber = 1 + (pr.2.input.take pr.1.pos).count 10) ∧
    (∀ (s : Scanner) (t : Int) (valid msg : List Nat),
      s.Next.2.LineNumber = s.LineNumber ∧
      s.Peek.2.LineNumber = s.LineNumber ∧
      s.Backup.LineNumber = s.LineNumber ∧
      (s.Accept valid).2.LineNumber = s.LineNumber ∧
      (Scanner.AcceptRun valid s).LineNumber = s.LineNumber ∧
      (s.Emit t).LineNumber = s.LineNumber ∧
      s.Ignore.LineNumber = s.LineNumber ∧
      (s.Errorf msg).1.LineNumber = s.LineNumber) := by
  constructor
  · intro s pr h
    obtain ⟨hn1, hn2, hn3, hn4, hn5, hn6⟩ := nextItem_some s pr h
    refine ⟨hn5, ?_⟩
    rw [Scanner.LineNumber, hn5]
  · intro s t valid msg
    obtain ⟨hf1, hf2, hf3, hf4, hf5⟩ := acceptRun_frame valid s
    exact ⟨lineNumber_congr (next_input s) (next_lastPos s),
           lineNumber_congr (peek_input s) (peek_lastPos s),
           lineNumber_congr (backup_input s) (backup_lastPos s),
           lineNumber_congr (accept_input valid s) (accept_lastPos valid s),
           lineNumber_congr hf1 hf4,
           lineNumber_congr (emit_input t s) (emit_lastPos t s),
           lineNumber_congr (ignore_input s) (ignore_lastPos s),
           lineNumber_congr (errorf_fst_input msg s) (errorf_fst_lastPos msg s)⟩

theorem LineNumber_counts_before_handoff_witness :
    c5take.2.lastPos = c5take.1.pos ∧
    c5take.2.LineNumber = 1 + (c5take.2.input.take c5take.1.pos).count 10 :=
  LineNumber_counts_before_handoff.1 c5sc c5take (Option.some_get _).symm
